import Mathlib

/-!
Verification of the record-fusion and spreadsheet-synchronization core of the
VisionFusion_OCR_QR repository (files `script2.py`, `final_mix.py`, `app.py`).

Shallow embedding conventions:
* Python strings are modelled as `Str := List Char`; `String` literals enter
  through `String.data`.
* A pandas `NaN` cell and the empty string are identified (every operation in
  the embedded code treats them the same way: `pd.notna(v) and str(v).strip() != ''`).
* `str.lower` is modelled ASCII-only (`Char.toLower`); all column names and all
  concrete inputs used in theorems are ASCII, and the Persian characters that
  occur in data positions are untouched by both Python's and the model's lower.
* Python's `\d` and `\w` regex classes are modelled as ASCII digit and
  ASCII alphanumeric/underscore-or-non-ASCII respectively; the only non-ASCII
  characters relevant to the embedded code are Persian letters and digits,
  which fall on the same side of each class in Python and in the model.
-/

abbrev Str := List Char

/-- Python `str.strip` / trailing-and-leading whitespace removal. -/
def trimStr (s : Str) : Str :=
  ((s.dropWhile Char.isWhitespace).reverse.dropWhile Char.isWhitespace).reverse

/-- ASCII `str.lower`. -/
def lowerStr (s : Str) : Str := s.map Char.toLower

/-- Keep the first occurrence of each element (Python `dict.fromkeys` dedup). -/
def dedupKeepFirst (l : List Str) : List Str :=
  l.foldl (fun acc v => if v ∈ acc then acc else acc ++ [v]) []

/-- `' | '.join(...)` over the already-deduplicated value list. -/
def joinPipe : List Str → Str
  | [] => []
  | [x] => x
  | x :: xs => x ++ (' ' :: '|' :: ' ' :: joinPipe xs)

/-- `script2.merge_cell_values`: strip each value, drop empties, dedup keeping
first occurrences, join with `" | "` (`NaN` cells are modelled as `[]`). -/
def merge_cell_values (values : List Str) : Str :=
  let clean_values := (values.map trimStr).filter (fun v => v ≠ [])
  joinPipe (dedupKeepFirst clean_values)

/-- A table: columns in order, each a name with its list of row cells. -/
abbrev Table := List (Str × List Str)

def colNames (t : Table) : List Str := t.map (·.1)

def nRows (t : Table) : Nat :=
  match t with
  | [] => 0
  | (_, vs) :: _ => vs.length

/-- `df.at[idx, col]` (first column with the given name; `""` when absent). -/
def cellAt (t : Table) (name : Str) (i : Nat) : Str :=
  match t.find? (fun c => c.1 = name) with
  | some c => c.2.getD i []
  | none => []

/-- `final_mix.remove_junk_columns` patterns, via `re.match` (anchored at the
start of the column name). -/
def digitsTail (pre : Str) (minLen : Nat) (n : Str) : Bool :=
  pre.isPrefixOf n &&
    (let rest := n.drop pre.length
     minLen ≤ rest.length && rest.all Char.isDigit)

def isJunkCol (n : Str) : Bool :=
  digitsTail ("Phone".data) 2 n ||
  digitsTail ("Services".data) 1 n ||
  digitsTail ("CompanyName".data) 1 n ||
  digitsTail ("Email".data) 1 n ||
  digitsTail ("Address".data) 1 n ||
  digitsTail ("ContactName".data) 1 n ||
  "[2]".data.isSuffixOf n ||
  "[3]".data.isSuffixOf n ||
  "[4]".data.isSuffixOf n ||
  n = "Notes".data ||
  n = "_source".data ||
  digitsTail ("Website".data) 1 n

/-- `final_mix.remove_junk_columns`: drop every column whose name matches one
of the junk patterns. -/
def remove_junk_columns (t : Table) : Table :=
  t.filter (fun c => ¬ isJunkCol c.1)

/-- Does the (normalized) value `v` appear in the row's cells, verbatim or as
part of a `" | "`-joined value (i.e. as a contiguous substring)? -/
def appearsInRow (v : Str) (cells : List Str) : Bool :=
  cells.any (fun cell => decide (v <:+: cell))

/-! ## `final_mix.py` normalizers and `extract_key_identifier` -/

/-- `final_mix.normalize_value`: `str(val).strip().lower()`. -/
def normalize_value (v : Str) : Str := lowerStr (trimStr v)

/-- Drop a prefix when present, otherwise return the string unchanged. -/
def stripPrefixIf (p : Str) (s : Str) : Str :=
  if p.isPrefixOf s then s.drop p.length else s

/-- `final_mix.normalize_website`: lower+strip, remove one leading scheme and
one leading `www.`, keep the host before the first `/` or `?`, strip trailing
dots. -/
def normalize_website (url : Str) : Str :=
  let u := lowerStr (trimStr url)
  let u := if ("https://".data).isPrefixOf u then u.drop 8
           else if ("http://".data).isPrefixOf u then u.drop 7 else u
  let u := stripPrefixIf ("www.".data) u
  let u := (u.takeWhile (· ≠ '/')).takeWhile (· ≠ '?')
  (u.reverse.dropWhile (· = '.')).reverse

/-- `final_mix.normalize_phone`: `re.sub(r"[^\d+]", "", phone)` — keeps the
digits AND any `'+'` characters. -/
def normalize_phone (phone : Str) : Str :=
  phone.filter (fun c => c.isDigit || c = '+')

/-- Worker for `replaceAll`, structurally recursive on a fuel argument so that
it evaluates inside the kernel; each step consumes at least one character of
`s` (the pattern is non-empty), so `fuel = s.length` is always enough. -/
def replaceAllGo (pat rep : Str) : Nat → Str → Str
  | _, [] => []
  | 0, s => s
  | fuel + 1, c :: rest =>
      if pat ≠ [] ∧ pat.isPrefixOf (c :: rest) then
        rep ++ replaceAllGo pat rep fuel ((c :: rest).drop pat.length)
      else
        c :: replaceAllGo pat rep fuel rest

/-- Python `str.replace` (all non-overlapping occurrences, left to right). -/
def replaceAll (pat rep : Str) (s : Str) : Str :=
  if pat = [] then s else replaceAllGo pat rep s.length s

/-- Python's `\w` (word character), modelled as ASCII alphanumeric, `_`, or any
non-ASCII character (the non-ASCII characters reaching this code are Persian
letters, which are word characters in Python's Unicode `\w` as well). -/
def isWordChar (c : Char) : Bool :=
  c.isAlphanum || c = '_' || 128 ≤ c.toNat

/-- Worker for `collapseWs`; the flag records whether the previous character
was whitespace (i.e. we are inside a run that already emitted its space). -/
def collapseWsGo : Bool → Str → Str
  | _, [] => []
  | prevWs, c :: rest =>
      if c.isWhitespace then
        if prevWs then collapseWsGo true rest
        else ' ' :: collapseWsGo true rest
      else c :: collapseWsGo false rest

/-- `re.sub(r"\s+", " ", s)`: collapse every whitespace run to one space. -/
def collapseWs (s : Str) : Str := collapseWsGo false s

/-- The stop-word list of `final_mix.normalize_company_name`, in source order
(the replacements are applied sequentially). -/
def companyStopwords : List Str :=
  ["شرکت".data, "company".data, "co.".data, "co".data, "ltd".data, "inc".data,
   "corp".data, "سهامی".data, "خاص".data, "عام".data, "private".data,
   "public".data, "holding".data, "international".data, "بین المللی".data,
   "گروه".data, "group".data]

/-- `final_mix.normalize_company_name`. -/
def normalize_company_name (name : Str) : Str :=
  let n := lowerStr (trimStr name)
  let n := companyStopwords.foldl (fun acc w => replaceAll w (" ".data) acc) n
  let n := n.map (fun c => if isWordChar c || c.isWhitespace then c else ' ')
  trimStr (collapseWs n)

/-- A record reaching `final_mix.extract_key_identifier`; absent dict keys are
modelled as `[]` (Python `record.get` default / falsy handling coincide). -/
structure KeyRecord where
  Website : Str := []
  url : Str := []
  Phone1 : Str := []
  Phone2 : Str := []
  Phone3 : Str := []
  Phone4 : Str := []
  Email : Str := []
  CompanyNameEN : Str := []
  CompanyNameFA : Str := []
deriving DecidableEq

/-- The tagged identity key. The Python fallback branch returns
`("unique", str(id(record)))` — a per-object, non-reproducible token — which is
modelled as the bare `unique` tag. -/
inductive KeyResult where
  | website (d : Str)
  | phone (d : Str)
  | email (d : Str)
  | company (d : Str)
  | unique
deriving DecidableEq

/-- One iteration of the phone loop: `if phone and len(phone) >= 8`. -/
def phoneKeyOf (pf : Str) : Option Str :=
  if normalize_phone pf ≠ [] ∧ 8 ≤ (normalize_phone pf).length
  then some (normalize_phone pf) else none

/-- One iteration of the company-name loop: `if name and len(name) > 3`. -/
def companyKeyOf (nf : Str) : Option Str :=
  if normalize_company_name nf ≠ [] ∧ 3 < (normalize_company_name nf).length
  then some (normalize_company_name nf) else none

/-- `final_mix.extract_key_identifier`, translated branch by branch. -/
def extract_key_identifier (r : KeyRecord) : KeyResult :=
  let website := normalize_website (if r.Website ≠ [] then r.Website else r.url)
  if website ≠ [] then .website website
  else
    match [r.Phone1, r.Phone2, r.Phone3, r.Phone4].findSome? phoneKeyOf with
    | some phone => .phone phone
    | none =>
        let email := normalize_value r.Email
        if email ≠ [] ∧ '@' ∈ email then .email email
        else
          match [r.CompanyNameEN, r.CompanyNameFA].findSome? companyKeyOf with
          | some name => .company name
          | none => .unique

/-- The key tag alone (which priority branch fired). -/
inductive KeyTag where
  | website
  | phone
  | email
  | company
  | fallback
deriving DecidableEq

def tagOf : KeyResult → KeyTag
  | .website _ => .website
  | .phone _ => .phone
  | .email _ => .email
  | .company _ => .company
  | .unique => .fallback

/-- The identity-key priority chain exactly as claim C2 words it: the phone
branch fires when some phone field normalizes to AT LEAST 8 DIGITS. -/
def claimKeyTag (r : KeyRecord) : KeyTag :=
  if normalize_website (if r.Website ≠ [] then r.Website else r.url) ≠ [] then .website
  else if [r.Phone1, r.Phone2, r.Phone3, r.Phone4].any
      (fun pf => 8 ≤ ((normalize_phone pf).filter Char.isDigit).length) then .phone
  else if '@' ∈ normalize_value r.Email then .email
  else if [r.CompanyNameEN, r.CompanyNameFA].any
      (fun nf => normalize_company_name nf ≠ [] ∧ 3 < (normalize_company_name nf).length)
    then .company
  else .fallback

/-! ## The composite cell normalizer of spec §4.1 (claim C3)

The spec's `ValueNormalizer` combines `app.clean_cell` (null-sentinel blanking,
trimming, `#`-blanking) with `final_mix.clean_dataframe_before_excel`
(`=`-stripping, `#`-blanking, Persian-digit transliteration), in the order the
spec fixes: sentinels, trim, `=`, `#`, digits. -/

/-- The null-like sentinels, compared case-insensitively (spec §4.1 rule 1). -/
def nullSentinels : List Str :=
  ["nan".data, "none".data, "nat".data, "null".data]

/-- Transliterate one Persian (extended Arabic-Indic, U+06F0–U+06F9) digit to
ASCII; other characters unchanged. Mirrors
`str.maketrans('۰۱۲۳۴۵۶۷۸۹', '0123456789')`. -/
def transPersianDigit (c : Char) : Char :=
  if c = '۰' then '0'
  else if c = '۱' then '1'
  else if c = '۲' then '2'
  else if c = '۳' then '3'
  else if c = '۴' then '4'
  else if c = '۵' then '5'
  else if c = '۶' then '6'
  else if c = '۷' then '7'
  else if c = '۸' then '8'
  else if c = '۹' then '9'
  else c

/-- Rule 1: coerce null-like sentinels (case-insensitive) to empty. -/
def sentinelBlank (s : Str) : Str := if lowerStr s ∈ nullSentinels then [] else s

/-- Rule 3: strip one leading `'='` (escaped formula). -/
def eqStrip (s : Str) : Str := if s.head? = some '=' then s.drop 1 else s

/-- Rule 4: blank `'#'`-prefixed values (propagated error markers). -/
def hashBlank (s : Str) : Str := if s.head? = some '#' then [] else s

/-- The spec §4.1 cell normalizer; `none` models an absent/NaN input. The
rules are applied in the spec's order: sentinels, trim, `'='`, `'#'`, digits. -/
def normalizeCell (x : Option Str) : Str :=
  match x with
  | none => []
  | some s => (hashBlank (eqStrip (trimStr (sentinelBlank s)))).map transPersianDigit

/-! ## `script2.clean_company_id` (claim C10) -/

/-- `COMP_UNKNOWN_`, the 13-character marker of the regex
`COMP_UNKNOWN_[A-F0-9]+`. -/
def compUnknownMarker : Str := "COMP_UNKNOWN_".data

/-- Upper-case hexadecimal character class `[A-F0-9]`. -/
def isHexUp (c : Char) : Bool := ('A' ≤ c && c ≤ 'F') || c.isDigit

/-- `re.search(r'COMP_UNKNOWN_[A-F0-9]+', s)`: scan left to right; at the first
position where the marker is followed by at least one `[A-F0-9]` character,
return the marker plus the maximal (greedy) hex run. -/
def searchCompUnknown : Str → Option Str
  | [] => none
  | c :: rest =>
      if compUnknownMarker.isPrefixOf (c :: rest) then
        let run := ((c :: rest).drop compUnknownMarker.length).takeWhile isHexUp
        if run ≠ [] then some (compUnknownMarker ++ run)
        else searchCompUnknown rest
      else searchCompUnknown rest

/-- Does the regex `COMP_UNKNOWN_[A-F0-9]+` match at position `i` of `s`? -/
def compMatchAt (s : Str) (i : Nat) : Bool :=
  compUnknownMarker.isPrefixOf (s.drop i) &&
    (((s.drop i).drop compUnknownMarker.length).headD '!' |> isHexUp)

/-- `script2.clean_company_id` on a (non-NaN) cell: the first regex match if
any, otherwise the text before the first `'|'`, stripped. -/
def clean_company_id (s : Str) : Str :=
  match searchCompUnknown s with
  | some m => m
  | none => trimStr (s.takeWhile (· ≠ '|'))

/-! ## `app.append_excel_data_to_sheets` header reconciliation (claim C7) -/

/-- The remote header after one synchronization call, as a function of the
header read in step 1 (`existing_headers`) and the local frame's columns
(`new_headers`): an empty remote table receives the local columns verbatim
(they travel as the first appended row); otherwise the header is rewritten as
`existing + new_columns` (first-occurrence dedup) only when `new_columns` is
non-empty, which leaves it unchanged exactly when that list is empty. -/
def syncHeader (existing localCols : List Str) : List Str :=
  if existing = [] then localCols
  else
    (localCols.filter (fun c => decide (c ∉ existing))).foldl
      (fun acc c => if c ∈ acc then acc else acc ++ [c]) existing

/-! ## `app.append_excel_data_to_sheets` append-error handling (claim C9) -/

/-- Outcome of one `values().append` call against the remote service. -/
inductive RemoteResult where
  | ok (updatedRows : Nat)
  | httpErr (code : Nat) (msg : Str)
  | exn (msg : Str)

/-- The function's `(ok, message, url, total_rows)` return tuple. -/
structure SyncReturn where
  ok : Bool
  message : Str
  url : Option Str
  totalRows : Nat
deriving DecidableEq

def rateLimitMsg : Str := "Rate limit reached. please wait a few minutes".data

def natStr (n : Nat) : Str := (Nat.repr n).data

/-- The `except HttpError` classification chain, in source order. -/
def classifyAppendError (code : Nat) (msg : Str) : SyncReturn :=
  if code = 429 then ⟨false, rateLimitMsg, none, 0⟩
  else if code = 403 then
    ⟨false, "no access to google sheet. check service account".data, none, 0⟩
  else if ("exceeds grid limits".data) <:+: msg || ("GRID_LIMITS".data) <:+: msg then
    ⟨false, "sheet is full (10m cells limit). create a new sheet".data, none, 0⟩
  else if ("Quota exceeded".data) <:+: msg then
    ⟨false, "google daily quota finished. try again tomorrow".data, none, 0⟩
  else ⟨false, "google error: ".data ++ msg, none, 0⟩

/-- The append step: issue exactly one `append` call (`remote 0` is the reply
the service would give to the first call; the second component of the result
counts the append calls actually made — the source contains no retry loop).
On success the source then rebuilds the report message from the updated
row/column counts. -/
def appendStep (remote : Nat → RemoteResult) (existingRows totalColumns : Nat)
    (fileUrl : Str) : SyncReturn × Nat :=
  match remote 0 with
  | .ok updatedRows =>
      let totalRows := existingRows + updatedRows
      (⟨true,
        "✅ ".data ++ natStr updatedRows ++ " new rows | Total: ".data ++
          natStr totalRows ++ " rows | ".data ++ natStr totalColumns ++ " columns".data,
        some fileUrl, totalRows⟩, 1)
  | .httpErr code msg => (classifyAppendError code msg, 1)
  | .exn msg => (⟨false, msg, none, 0⟩, 1)

/-! ## `script2.py` column reconciliation (claims C1, C4) -/

/-- `script2.extract_base_name`: strip one maximal trailing digit run, keeping
at least one character (the first regex `^(.+?)\d+$` matches whenever the name
ends in a digit, with a lazy group of at least one character; the second and
third patterns are subsumed by it). Python's `\d` is modelled as ASCII digits;
column names are ASCII. -/
def extract_base_name (s : Str) : Str :=
  let dsl := (s.reverse.takeWhile Char.isDigit).length
  if dsl = 0 then s else s.take (max 1 (s.length - dsl))

/-- Base of a column name as used by `find_numbered_groups`
(`extract_base_name(col.lower())`). -/
def lowBase (n : Str) : Str := extract_base_name (lowerStr n)

/-- All columns sharing base `b`, in table order. -/
def groupOf (names : List Str) (b : Str) : List Str :=
  names.filter (fun n => lowBase n = b)

/-- The bases that have at least two columns, in first-occurrence order
(`find_numbered_groups`; `defaultdict` iteration order is insertion order). -/
def groupBases (names : List Str) : List Str :=
  (dedupKeepFirst (names.map lowBase)).filter (fun b => 2 ≤ (groupOf names b).length)

/-- Code-point lexicographic strict comparison (Python `str <`). -/
def lexLt : Str → Str → Bool
  | [], [] => false
  | [], _ :: _ => true
  | _ :: _, [] => false
  | a :: as, b :: bs => if a < b then true else if b < a then false else lexLt as bs

/-- `sorted(cols, key=lambda x: (len(x), x))` ordering. -/
def keyLe (a b : Str) : Bool :=
  a.length < b.length || (a.length = b.length && (lexLt a b || a = b))

def insSorted (x : Str) : List Str → List Str
  | [] => [x]
  | y :: ys => if keyLe x y then x :: y :: ys else y :: insSorted x ys

/-- Insertion sort by `(len, lexicographic)`. -/
def sortCols (l : List Str) : List Str := l.foldr insSorted []

/-- The shortest-named column of a numbered group (`cols_sorted[0]`). -/
def mainCol (g : List Str) : Str := (sortCols g).headD []

/-- The columns dropped for a numbered group (`cols_sorted[1:]`). -/
def droppedCols (g : List Str) : List Str := (sortCols g).tail

/-- Per-row merged value of a numbered group: distinct non-empty stripped
values in sorted-column order, pipe-joined; if none, the main column's old
value is left in place. -/
def mergedNumberedVals (t : Table) (g : List Str) : List Str :=
  (List.range (nRows t)).map fun i =>
    let vals := (sortCols g).filterMap
      (fun c => let v := trimStr (cellAt t c i); if v = [] then none else some v)
    let uniq := dedupKeepFirst vals
    if uniq = [] then cellAt t (mainCol g) i else joinPipe uniq

/-- `script2.merge_numbered_columns` (the groups are disjoint, so the source's
sequential in-place fold over groups equals this simultaneous rebuild). -/
def merge_numbered_columns (t : Table) : Table :=
  if groupBases (colNames t) = [] then t
  else
    t.filterMap fun c =>
      if lowBase c.1 ∈ groupBases (colNames t) then
        if c.1 ∈ droppedCols (groupOf (colNames t) (lowBase c.1)) then none
        else some (c.1, mergedNumberedVals t (groupOf (colNames t) (lowBase c.1)))
      else some c

/-- A column survives the numbered merge iff it is not a dropped (non-main)
member of a numbered group. -/
def surviveNumbered (names : List Str) (n : Str) : Bool :=
  !(decide (lowBase n ∈ groupBases names) &&
    decide (n ∈ droppedCols (groupOf names (lowBase n))))

/-- The case-insensitive duplicate group of a column name. -/
def dupGroup (names : List Str) (n : Str) : List Str :=
  names.filter (fun m => lowerStr m = lowerStr n)

/-- Per-row merged value of a duplicate group (`merge_cell_values` across the
group's cells, reading the original frame). -/
def mergedDupVals (t : Table) (g : List Str) : List Str :=
  (List.range (nRows t)).map fun i => merge_cell_values (g.map (fun c => cellAt t c i))

/-- Column-by-column rebuild of `script2.merge_duplicate_columns`: a column is
skipped iff an earlier column has the same lower-cased name (that is exactly
when the source's `processed` set already contains it); the first member of a
duplicate group keeps its spelling and receives the merged values. -/
def dupBuild (t : Table) (names : List Str) : List Str → Table → Table
  | _, [] => []
  | prev, c :: rest =>
      if prev.any (fun m => lowerStr m = lowerStr c.1) then
        dupBuild t names (c.1 :: prev) rest
      else if 2 ≤ (dupGroup names c.1).length then
        (c.1, mergedDupVals t (dupGroup names c.1)) :: dupBuild t names (c.1 :: prev) rest
      else c :: dupBuild t names (c.1 :: prev) rest

/-- `script2.merge_duplicate_columns`. -/
def merge_duplicate_columns (t : Table) : Table :=
  if (colNames t).all (fun n => (dupGroup (colNames t) n).length ≤ 1) then t
  else dupBuild t (colNames t) [] t

/-- The `(english_suffix, persian_suffix)` conventions of
`script2.find_bilingual_pairs`, in source order. -/
def bilingualPatterns : List (Str × Str) :=
  [("EN".data, "FA".data), ("_en".data, "_fa".data),
   ("English".data, "Persian".data), ([], "FA".data), ([], "_translated".data)]

/-- Try the suffix conventions for one column, first success wins (the
source's inner `for`/`break`). -/
def tryPatterns (columns processed : List Str) (col : Str) :
    List (Str × Str) → Option Str
  | [] => none
  | (en, fa) :: ps =>
      if en ≠ [] then
        if en.isSuffixOf col then
          let faCol := col.take (col.length - en.length) ++ fa
          if faCol ∈ columns ∧ faCol ∉ processed then some faCol
          else tryPatterns columns processed col ps
        else tryPatterns columns processed col ps
      else
        let faCol := col ++ fa
        if faCol ∈ columns ∧ faCol ∉ processed then some faCol
        else tryPatterns columns processed col ps

/-- The scan of `find_bilingual_pairs`: first argument is the `processed` set,
second the columns still to visit. -/
def findPairsGo (columns : List Str) : List Str → List Str → List (Str × Str)
  | _, [] => []
  | processed, col :: rest =>
      if col ∈ processed then findPairsGo columns processed rest
      else
        match tryPatterns columns processed col bilingualPatterns with
        | some fa => (col, fa) :: findPairsGo columns (processed ++ [col, fa]) rest
        | none => findPairsGo columns processed rest

/-- `script2.find_bilingual_pairs`. -/
def find_bilingual_pairs (columns : List Str) : List (Str × Str) :=
  findPairsGo columns [] columns

/-- One pair of `script2.merge_bilingual_columns`: fold the English and
Persian values into the English column (`None` when both empty, modelled as
`[]`), then drop the Persian column. -/
def applyBilingualPair (t : Table) (p : Str × Str) : Table :=
  let newVals := (List.range (nRows t)).map fun i =>
    let vals := [cellAt t p.1 i, cellAt t p.2 i].filterMap
      (fun v => let w := trimStr v; if w = [] then none else some w)
    let uniq := dedupKeepFirst vals
    if uniq = [] then [] else joinPipe uniq
  t.filterMap fun c =>
    if c.1 = p.2 then none
    else if c.1 = p.1 then some (c.1, newVals)
    else some c

/-- `script2.merge_bilingual_columns`. -/
def merge_bilingual_columns (t : Table) : Table :=
  let pairs := find_bilingual_pairs (colNames t)
  if pairs = [] then t else pairs.foldl applyBilingualPair t

/-- The full `ColumnReconciler` of spec §4.3: numbered-suffix merge, then
case-duplicate merge, then bilingual-pair merge (steps 1–3 of
`script2.process_company_data`). -/
def columnReconciler (t : Table) : Table :=
  merge_bilingual_columns (merge_duplicate_columns (merge_numbered_columns t))

/-! ## Per-row duplicate removal in `app.append_excel_data_to_sheets`
(claim C6) -/

abbrev Row := List (Str × Str)

/-- `val and str(val).strip() not in ['', 'nan', 'None', 'null', 'NULL']`. -/
def validCellVal (v : Str) : Bool :=
  v ≠ [] &&
    ¬ (trimStr v ∈ [([] : Str), "nan".data, "None".data, "null".data, "NULL".data])

/-- `(column, stripped value)` for the valid cells of a row, in column order. -/
def rowVals (row : Row) : List (Str × Str) :=
  row.filterMap fun c => if validCellVal c.2 then some (c.1, trimStr c.2) else none

/-- Distinct stripped values of a row in first-occurrence order (the insertion
order of the `value_counts` dict). -/
def rowValueOrder (row : Row) : List Str :=
  dedupKeepFirst ((rowVals row).map (·.2))

/-- The columns of a row holding a given stripped value, in column order. -/
def colsOfVal (row : Row) (v : Str) : List Str :=
  ((rowVals row).filter (fun c => c.2 = v)).map (·.1)

/-- Blank (`''`) every cell whose column name is in `cols`. -/
def blankCols (cols : List Str) (r : Row) : Row :=
  r.map fun c => if c.1 ∈ cols then (c.1, []) else c

/-- The duplicate post-pass of `app.append_excel_data_to_sheets` on one row:
for each distinct valid value occurring in at least 3 columns, keep the first
occurrence and blank the rest (`value_counts` is computed from the original
row before any blanking). -/
def removeRowDuplicates (row : Row) : Row :=
  (rowValueOrder row).foldl
    (fun r v =>
      if 3 ≤ (colsOfVal row v).length then blankCols ((colsOfVal row v).tail) r
      else r)
    row

/-- A cell named `c` ends up blanked by the pass iff some processed value has
at least 3 occurrence columns and `c` is a non-first one of them. -/
def blankCondAny (row : Row) (vs : List Str) (c : Str) : Bool :=
  vs.any (fun v =>
    decide (3 ≤ (colsOfVal row v).length) && decide (c ∈ (colsOfVal row v).tail))

/-! ## `app.merge_all_data_sources` file_name matching (claim C8) -/

/-- `app.merge_all_data_sources`'s local `normalize_url`: note that the Python
code uses `str.replace`, which removes EVERY occurrence of the scheme and of
`www.`, not just a leading one. -/
def normalize_url_app (u : Str) : Str :=
  let x := lowerStr (trimStr u)
  let x := replaceAll ("http://".data) [] x
  let x := replaceAll ("https://".data) [] x
  let x := replaceAll ("www.".data) [] x
  (x.takeWhile (· ≠ '/')).takeWhile (· ≠ '?')

/-- An OCR/QR row as seen by the URL→file_name mapping builder. -/
structure MixRow where
  Website : Str := []
  Website2 : Str := []
  Website3 : Str := []
  urls : Str := []
  url : Str := []
  file_name : Str := []
deriving DecidableEq

/-- The URL columns probed for a mix row, in source order. -/
def mixUrlCells (r : MixRow) : List Str :=
  [r.Website, r.Website2, r.Website3, r.urls, r.url]

/-- The `(normalized url, file_name)` entry one mix row contributes: the first
column whose cell is non-empty and normalizes to a non-empty domain, provided
the row has a file_name (otherwise the inner loop never breaks and nothing is
inserted). -/
def rowEntry (r : MixRow) : Option (Str × Str) :=
  (mixUrlCells r).findSome? fun cell =>
    if cell ≠ [] then
      let u := normalize_url_app cell
      if u ≠ [] then
        if r.file_name ≠ [] then some (u, r.file_name) else none
      else none
    else none

/-- Python dict assignment: overwrite in place, keep insertion position. -/
def insertOv (m : List (Str × Str)) (k v : Str) : List (Str × Str) :=
  if m.any (fun p => p.1 = k) then m.map (fun p => if p.1 = k then (k, v) else p)
  else m ++ [(k, v)]

/-- The `url_to_filename` dict (later rows overwrite earlier entries for the
same domain). -/
def buildUrlMap (rows : List MixRow) : List (Str × Str) :=
  rows.foldl
    (fun m r => match rowEntry r with
      | some e => insertOv m e.1 e.2
      | none => m)
    []

/-- A scraped record's URL cells, with `file_name` starting empty. -/
structure ScrapRow where
  Website : Str := []
  urls : Str := []
  url : Str := []
deriving DecidableEq

/-- The scrap-side URL probe: the FIRST non-empty cell among
`Website, urls, url` is normalized (the source breaks unconditionally). -/
def scrapUrl (r : ScrapRow) : Option Str :=
  ([r.Website, r.urls, r.url].find? (fun c => c ≠ [])).map normalize_url_app

def lookupMap (m : List (Str × Str)) (k : Str) : Option Str :=
  (m.find? (fun p => p.1 = k)).map (·.2)

/-- The file_name the match step assigns to a scrap row, when any. -/
def matchedName (m : List (Str × Str)) (r : ScrapRow) : Option Str :=
  match scrapUrl r with
  | some u => if u ≠ [] then lookupMap m u else none
  | none => none

/-- `list(url_to_filename.values())[0]`: the value currently held by the
FIRST-INSERTED key of the dict. -/
def defaultFileName (m : List (Str × Str)) : Str := (m.headD ([], [])).2

/-- One application of the fill pass to one cell: blank-or-`'Unknown'` names
are replaced by the default, and only when the dict is non-empty. -/
def fillName (m : List (Str × Str)) (x : Str) : Str :=
  if m ≠ [] ∧ (trimStr x = [] ∨ trimStr x = "Unknown".data) then defaultFileName m
  else x

/-- One iteration of the source's `for idx in df_scrap.index` loop: assign the
matched file_name to row `k` (if matched), then — because the fill block is
indented inside this loop — run the fill pass over ALL rows. -/
def fileNameStep (m : List (Str × Str)) (rows : List ScrapRow)
    (st : List Str) (k : Nat) : List Str :=
  let st1 := match matchedName m (rows.getD k ⟨[], [], []⟩) with
    | some f => st.set k f
    | none => st
  st1.map (fillName m)

/-- The final `file_name` column of the scrap frame after the matching loop
(initial value `''` for every row, as `df_scrap['file_name'] = ''`). -/
def assignFileNames (mixRows : List MixRow) (scrapRows : List ScrapRow) : List Str :=
  let m := buildUrlMap mixRows
  (List.range scrapRows.length).foldl (fileNameStep m scrapRows)
    (List.replicate scrapRows.length [])

/-- The net per-row effect of the matching loop (proved equal to
`assignFileNames` below): a matched row takes the dict's value for its domain
unless that value strips to `''`/`'Unknown'`; every other row takes the
first-inserted mapping's value. -/
def netFileName (m : List (Str × Str)) (r : ScrapRow) : Str :=
  match matchedName m r with
  | some f =>
      if trimStr f = [] ∨ trimStr f = "Unknown".data then defaultFileName m else f
  | none => defaultFileName m

/-- "The most common file_name of the OCR/QR table", as claim C8 words the
fallback (first-encountered value wins ties). -/
def mostCommonFileName (rows : List MixRow) : Str :=
  let fns := rows.map (·.file_name)
  (dedupKeepFirst fns).foldl (fun best f => if fns.count best < fns.count f then f else best) []

/-- The identity-key priority chain as amended: the phone branch fires when the
normalized phone string (digits and `'+'` kept) has length at least 8. -/
def amendedKeyTag (r : KeyRecord) : KeyTag :=
  if normalize_website (if r.Website ≠ [] then r.Website else r.url) ≠ [] then .website
  else if [r.Phone1, r.Phone2, r.Phone3, r.Phone4].any
      (fun pf => normalize_phone pf ≠ [] ∧ 8 ≤ (normalize_phone pf).length) then .phone
  else if '@' ∈ normalize_value r.Email then .email
  else if [r.CompanyNameEN, r.CompanyNameFA].any
      (fun nf => normalize_company_name nf ≠ [] ∧ 3 < (normalize_company_name nf).length)
    then .company
  else .fallback


/-! # Helper lemmas -/

theorem mem_foldl_dedup (l : List Str) :
    ∀ (acc : List Str) (x : Str),
      x ∈ l.foldl (fun acc v => if v ∈ acc then acc else acc ++ [v]) acc ↔
        x ∈ acc ∨ x ∈ l := by
  induction l with
  | nil => intro acc x; simp
  | cons v l ih =>
      intro acc x
      simp only [List.foldl_cons]
      rw [ih]
      by_cases hv : v ∈ acc
      · simp only [if_pos hv, List.mem_cons]
        constructor
        · rintro (h | h)
          · exact Or.inl h
          · exact Or.inr (Or.inr h)
        · rintro (h | h | h)
          · exact Or.inl h
          · exact Or.inl (h ▸ hv)
          · exact Or.inr h
      · simp only [if_neg hv, List.mem_append, List.mem_singleton, List.mem_cons]
        tauto

theorem mem_dedupKeepFirst {l : List Str} {x : Str} :
    x ∈ dedupKeepFirst l ↔ x ∈ l := by
  unfold dedupKeepFirst
  rw [mem_foldl_dedup]
  simp

theorem mem_joinPipe_substring {l : List Str} {a : Str} (h : a ∈ l) : a <:+: joinPipe l := by
  induction l with
  | nil => cases h
  | cons x xs ih =>
      cases xs with
      | nil =>
          rcases List.mem_singleton.mp h with rfl
          exact List.infix_refl a
      | cons y ys =>
          rcases List.mem_cons.mp h with rfl | hmem
          · exact (List.prefix_append a _).isInfix
          · have h1 : a <:+: joinPipe (y :: ys) := ih hmem
            have h2 : joinPipe (y :: ys) <:+: joinPipe (x :: y :: ys) := by
              refine ⟨x ++ [' ', '|', ' '], [], ?_⟩
              simp [joinPipe]
            exact h1.trans h2

/-! # Claim C1 (no data loss) -/

/-- Claim C1's counterexample: the fused output of `final_mix` passes through
`remove_junk_columns`, which deletes whole columns (`Notes` among them), so the
distinct non-empty normalized value `"secret"` contributed by the raw row is
absent from the merged row — neither verbatim nor inside any pipe-joined
value. -/
theorem c1_counterexample :
    remove_junk_columns
        [("Notes".data, ["secret".data]), ("Website".data, ["a.com".data])] =
      [("Website".data, ["a.com".data])] ∧
    trimStr ("secret".data) ≠ [] ∧
    appearsInRow ("secret".data) ["a.com".data] = false := by
  decide

/-- Claim C1 as amended: within the value-folding merge itself
(`merge_cell_values`), no data is lost — every distinct non-empty stripped
input value appears in the merged cell, verbatim or as part of the
`" | "`-joined value (i.e. as a contiguous substring); the end-to-end claim
fails only because `remove_junk_columns` afterwards drops whole columns. -/
theorem c1_merge_preserves_values (values : List Str) (v : Str)
    (hmem : v ∈ values) (hne : trimStr v ≠ []) :
    trimStr v <:+: merge_cell_values values := by
  unfold merge_cell_values
  apply mem_joinPipe_substring
  rw [mem_dedupKeepFirst]
  rw [List.mem_filter]
  exact ⟨List.mem_map_of_mem trimStr hmem, by simpa using hne⟩

/-- Witness for `c1_merge_preserves_values` at concrete inputs. -/
theorem c1_merge_preserves_values_witness :
    trimStr ("  x ".data) <:+: merge_cell_values ["  x ".data, "y".data] :=
  c1_merge_preserves_values ["  x ".data, "y".data] ("  x ".data)
    (by decide) (by decide)

/-! # Claim C5 (phone normalization scenario) -/

/-- Claim C5's counterexample: `normalize_phone` keeps the `'+'` sign, so
`"+98 21 1234"` and `"0211234"` normalize to DIFFERENT strings (`"+98211234"`
vs `"0211234"`), and the two records do not receive the same identity key. -/
theorem c5_counterexample :
    normalize_phone ("+98 21 1234".data) = "+98211234".data ∧
    normalize_phone ("0211234".data) = "0211234".data ∧
    normalize_phone ("+98 21 1234".data) ≠ normalize_phone ("0211234".data) ∧
    extract_key_identifier { Phone1 := "+98 21 1234".data } ≠
      extract_key_identifier { Phone1 := "0211234".data } := by
  decide

/-- Claim C5 as amended: the two phone fields normalize to the distinct
strings `"+98211234"` and `"0211234"`; the first (length 9 ≥ 8) yields the
phone key `Phone("+98211234")`, while the second (7 characters, below the
length-8 threshold) yields no phone key at all and falls through to the
non-reproducible unique fallback, so the records are not merged. -/
theorem c5_phone_keys :
    extract_key_identifier { Phone1 := "+98 21 1234".data } =
      .phone ("+98211234".data) ∧
    extract_key_identifier { Phone1 := "0211234".data } = .unique := by
  decide

/-! # Claim C9 (HTTP 429 handling) -/

/-- Claim C9: when the append call fails with HTTP 429, the synchronizer makes
exactly one remote append call (no automatic retry), returns a failure with
the human-readable retry-later message, no URL, and zero rows reported. -/
theorem c9_rate_limit_no_retry (remote : Nat → RemoteResult)
    (existingRows totalColumns : Nat) (fileUrl msg : Str)
    (h : remote 0 = .httpErr 429 msg) :
    appendStep remote existingRows totalColumns fileUrl =
      (⟨false, rateLimitMsg, none, 0⟩, 1) := by
  unfold appendStep
  rw [h]
  rfl

/-- Witness for `c9_rate_limit_no_retry` on a concrete quota failure. -/
theorem c9_rate_limit_no_retry_witness :
    appendStep (fun _ => .httpErr 429 ("Quota exceeded".data)) 100 5 ("u".data) =
      (⟨false, rateLimitMsg, none, 0⟩, 1) :=
  c9_rate_limit_no_retry _ 100 5 ("u".data) ("Quota exceeded".data) rfl

/-! # Claim C3 (normalizer totality and idempotence) -/

theorem transPersianDigit_cases (c : Char) :
    transPersianDigit c = c ∨
      transPersianDigit c ∈ ['0', '1', '2', '3', '4', '5', '6', '7', '8', '9'] := by
  unfold transPersianDigit
  repeat' split
  all_goals simp

theorem transPersianDigit_idem (c : Char) :
    transPersianDigit (transPersianDigit c) = transPersianDigit c := by
  rcases transPersianDigit_cases c with h | h
  · rw [h, h]
  · simp only [List.mem_cons, List.not_mem_nil, or_false] at h
    rcases h with h | h | h | h | h | h | h | h | h | h <;> rw [h] <;> decide

theorem transPersianDigit_ne_hash {c : Char} (h : c ≠ '#') :
    transPersianDigit c ≠ '#' := by
  rcases transPersianDigit_cases c with hc | hc
  · rw [hc]; exact h
  · simp only [List.mem_cons, List.not_mem_nil, or_false] at hc
    rcases hc with hc | hc | hc | hc | hc | hc | hc | hc | hc | hc <;>
      rw [hc] <;> decide

theorem map_transPersianDigit_idem (s : Str) :
    (s.map transPersianDigit).map transPersianDigit = s.map transPersianDigit := by
  rw [List.map_map]
  apply List.map_congr_left
  intro c _
  exact transPersianDigit_idem c

theorem hashBlank_head_ne_hash (s : Str) : (hashBlank s).head? ≠ some '#' := by
  unfold hashBlank
  by_cases h : s.head? = some '#'
  · simp [h]
  · simp [h]

theorem normalizeCell_head_ne_hash (x : Option Str) :
    (normalizeCell x).head? ≠ some '#' := by
  unfold normalizeCell
  cases x with
  | none => simp
  | some s =>
      show ((hashBlank (eqStrip (trimStr (sentinelBlank s)))).map
          transPersianDigit).head? ≠ some '#'
      have hb := hashBlank_head_ne_hash (eqStrip (trimStr (sentinelBlank s)))
      cases hw : hashBlank (eqStrip (trimStr (sentinelBlank s))) with
      | nil => simp
      | cons c rest =>
          rw [hw] at hb
          simp only [List.head?_cons, ne_eq, Option.some.injEq] at hb
          simp only [List.map_cons, List.head?_cons, ne_eq, Option.some.injEq]
          exact transPersianDigit_ne_hash hb

/-- Claim C3's counterexample: the normalizer strips ONE leading `'='` per
application, so it is not idempotent: `normalize("==a") = "=a"` but
`normalize(normalize("==a")) = "a"`. -/
theorem c3_counterexample :
    normalizeCell (some ("==a".data)) = "=a".data ∧
    normalizeCell (some (normalizeCell (some ("==a".data)))) = "a".data ∧
    normalizeCell (some (normalizeCell (some ("==a".data)))) ≠
      normalizeCell (some ("==a".data)) := by
  decide

/-- Claim C3 as amended: the normalizer is total (it is a total function of
its input, returning a string for every string, absent, or null-like input),
and it is idempotent on every input whose normalized result is a fixed point
of the early rules — i.e. whenever `normalize(x)` is not a null-like sentinel,
is already trimmed, and does not begin with `'='`. It is NOT idempotent in
general: a result that begins with `'='` (from `"==a"`), carries whitespace
exposed by the `'='`-strip (from `"= a"`), or equals a sentinel (from
`"=nan"`) changes under a second application. -/
theorem c3_normalizer_idempotent_on_fixed_points (x : Option Str)
    (h1 : lowerStr (normalizeCell x) ∉ nullSentinels)
    (h2 : trimStr (normalizeCell x) = normalizeCell x)
    (h3 : (normalizeCell x).head? ≠ some '=') :
    normalizeCell (some (normalizeCell x)) = normalizeCell x := by
  have hhash : (normalizeCell x).head? ≠ some '#' := normalizeCell_head_ne_hash x
  have hsb : sentinelBlank (normalizeCell x) = normalizeCell x := by
    unfold sentinelBlank
    rw [if_neg h1]
  have hes : eqStrip (normalizeCell x) = normalizeCell x := by
    unfold eqStrip
    rw [if_neg h3]
  have hhb : hashBlank (normalizeCell x) = normalizeCell x := by
    unfold hashBlank
    rw [if_neg hhash]
  show (hashBlank (eqStrip (trimStr (sentinelBlank (normalizeCell x))))).map
      transPersianDigit = normalizeCell x
  rw [hsb, h2, hes, hhb]
  cases x with
  | none => rfl
  | some s =>
      show ((hashBlank (eqStrip (trimStr (sentinelBlank s)))).map
          transPersianDigit).map transPersianDigit = _
      rw [map_transPersianDigit_idem]
      rfl

/-- Witness for `c3_normalizer_idempotent_on_fixed_points` on `"hello"`. -/
theorem c3_normalizer_idempotent_witness :
    normalizeCell (some (normalizeCell (some ("hello".data)))) =
      normalizeCell (some ("hello".data)) :=
  c3_normalizer_idempotent_on_fixed_points (some ("hello".data))
    (by decide) (by decide) (by decide)

/-! # Claim C7 (header monotonicity) -/

theorem foldl_dedup_append_of_disjoint :
    ∀ (l acc : List Str), l.Nodup → (∀ c ∈ l, c ∉ acc) →
      l.foldl (fun acc c => if c ∈ acc then acc else acc ++ [c]) acc = acc ++ l := by
  intro l
  induction l with
  | nil => intro acc _ _; simp
  | cons c cs ih =>
      intro acc hnd hdisj
      have hc : c ∉ acc := hdisj c (List.mem_cons_self c cs)
      simp only [List.foldl_cons, if_neg hc]
      rw [ih (acc ++ [c]) (List.Nodup.of_cons hnd)]
      · simp
      · intro d hd
        rw [List.mem_append, List.mem_singleton]
        rintro (hda | rfl)
        · exact hdisj d (List.mem_cons_of_mem c hd) hda
        · exact (List.nodup_cons.mp hnd).1 hd

/-- Claim C7: after any synchronization call, the remote header is exactly the
previous remote header (unchanged in content, order, and positions) followed
by exactly the local columns that were not already present, in local order —
no column is removed or reordered. -/
theorem c7_header_monotonicity (existing localCols : List Str)
    (h : localCols.Nodup) :
    syncHeader existing localCols =
      existing ++ localCols.filter (fun c => decide (c ∉ existing)) := by
  unfold syncHeader
  by_cases he : existing = []
  · subst he
    rw [if_pos rfl, List.nil_append]
    symm
    apply List.filter_eq_self.mpr
    intro c _
    simp
  · rw [if_neg he]
    apply foldl_dedup_append_of_disjoint
    · exact h.filter _
    · intro c hc
      have := (List.mem_filter.mp hc).2
      simpa using this

/-- Witness for `c7_header_monotonicity`: local `["A", "B"]` against remote
`["A"]` gives `["A", "B"]`. -/
theorem c7_header_monotonicity_witness :
    syncHeader ["A".data] ["A".data, "B".data] = ["A".data, "B".data] := by
  have h := c7_header_monotonicity (["A".data]) (["A".data, "B".data]) (by decide)
  rw [h]
  decide

/-! # Claim C2 (identity-key priority) -/

theorem phoneKeyOf_eq_none_iff (pf : Str) :
    phoneKeyOf pf = none ↔
      ¬(normalize_phone pf ≠ [] ∧ 8 ≤ (normalize_phone pf).length) := by
  unfold phoneKeyOf
  split <;> simp_all

theorem companyKeyOf_eq_none_iff (nf : Str) :
    companyKeyOf nf = none ↔
      ¬(normalize_company_name nf ≠ [] ∧ 3 < (normalize_company_name nf).length) := by
  unfold companyKeyOf
  split <;> simp_all

/-- Claim C2's counterexample: the phone branch checks the LENGTH of the
normalized phone string, which retains `'+'`; `"+1234567"` has only 7 digits
(so the claim's chain keeps falling and selects the email key), yet its
normalized length is 8, so the code selects the phone key. -/
theorem c2_counterexample :
    claimKeyTag { Phone1 := "+1234567".data, Email := "a@b.com".data } =
      .email ∧
    tagOf (extract_key_identifier
        { Phone1 := "+1234567".data, Email := "a@b.com".data }) = .phone ∧
    (KeyTag.email ≠ KeyTag.phone) := by
  decide

/-- Claim C2 as amended: the key tag is chosen by strict priority —
website domain non-empty; else some phone field (in `Phone1..Phone4` order)
whose normalization (digits and `'+'` kept) has LENGTH at least 8; else the
email field contains `'@'`; else a company-name field normalizes to a usable
name (non-empty, length > 3) whose normalized form becomes the key; else the
per-record fallback. -/
theorem c2_key_priority (r : KeyRecord) :
    tagOf (extract_key_identifier r) = amendedKeyTag r := by
  unfold extract_key_identifier amendedKeyTag
  by_cases hw : normalize_website (if r.Website ≠ [] then r.Website else r.url) ≠ []
  · simp only [if_pos hw]
    rfl
  · simp only [if_neg hw]
    rcases hp : [r.Phone1, r.Phone2, r.Phone3, r.Phone4].findSome? phoneKeyOf with _ | p
    · have hnone := List.findSome?_eq_none_iff.mp hp
      have hany : ([r.Phone1, r.Phone2, r.Phone3, r.Phone4].any
          (fun pf => normalize_phone pf ≠ [] ∧ 8 ≤ (normalize_phone pf).length)) = false := by
        rw [List.any_eq_false]
        intro pf hpf
        have := (phoneKeyOf_eq_none_iff pf).mp (hnone pf hpf)
        simpa using this
      rw [hany]
      simp only [Bool.false_eq_true, if_false]
      by_cases he : '@' ∈ normalize_value r.Email
      · have hne : normalize_value r.Email ≠ [] := List.ne_nil_of_mem he
        simp only [if_pos (And.intro hne he), if_pos he]
        rfl
      · have hcond : ¬(normalize_value r.Email ≠ [] ∧ '@' ∈ normalize_value r.Email) := by
          intro hc
          exact he hc.2
        simp only [if_neg hcond, if_neg he]
        rcases hc : [r.CompanyNameEN, r.CompanyNameFA].findSome? companyKeyOf with _ | nm
        · have hcnone := List.findSome?_eq_none_iff.mp hc
          have hcany : ([r.CompanyNameEN, r.CompanyNameFA].any
              (fun nf => normalize_company_name nf ≠ [] ∧
                3 < (normalize_company_name nf).length)) = false := by
            rw [List.any_eq_false]
            intro nf hnf
            have := (companyKeyOf_eq_none_iff nf).mp (hcnone nf hnf)
            simpa using this
          rw [hcany]
          simp [tagOf]
        · rcases List.exists_of_findSome?_eq_some hc with ⟨nf, hnf, hsome⟩
          have hcond2 : normalize_company_name nf ≠ [] ∧
              3 < (normalize_company_name nf).length := by
            by_contra hcon
            rw [(companyKeyOf_eq_none_iff nf).mpr hcon] at hsome
            cases hsome
          have hcany : ([r.CompanyNameEN, r.CompanyNameFA].any
              (fun nf => normalize_company_name nf ≠ [] ∧
                3 < (normalize_company_name nf).length)) = true := by
            rw [List.any_eq_true]
            exact ⟨nf, hnf, by simpa using hcond2⟩
          rw [hcany]
          simp [tagOf]
    · rcases List.exists_of_findSome?_eq_some hp with ⟨pf, hpf, hsome⟩
      have hcond : normalize_phone pf ≠ [] ∧ 8 ≤ (normalize_phone pf).length := by
        by_contra hcon
        rw [(phoneKeyOf_eq_none_iff pf).mpr hcon] at hsome
        cases hsome
      have hany : ([r.Phone1, r.Phone2, r.Phone3, r.Phone4].any
          (fun pf => normalize_phone pf ≠ [] ∧ 8 ≤ (normalize_phone pf).length)) = true := by
        rw [List.any_eq_true]
        exact ⟨pf, hpf, by simpa using hcond⟩
      rw [hany]
      simp [tagOf]

/-! # Claim C10 (CompanyID cleanup precedence) -/

theorem compMatchAt_cons (c : Char) (l : Str) (i : Nat) :
    compMatchAt (c :: l) (i + 1) = compMatchAt l i := by
  unfold compMatchAt
  rw [List.drop_succ_cons]

theorem takeWhile_hexUp_eq_nil_iff (l : Str) :
    l.takeWhile isHexUp = [] ↔ isHexUp (l.headD '!') = false := by
  cases l with
  | nil =>
      have hx : isHexUp '!' = false := by decide
      simp [List.takeWhile, hx]
  | cons c rest =>
      simp only [List.takeWhile_cons, List.headD_cons]
      by_cases h : isHexUp c = true
      · simp [h]
      · simp_all

theorem searchCompUnknown_cons_eq (c : Char) (rest : Str) :
    searchCompUnknown (c :: rest) =
      if compUnknownMarker.isPrefixOf (c :: rest) then
        (if ((c :: rest).drop compUnknownMarker.length).takeWhile isHexUp ≠ [] then
          some (compUnknownMarker ++
            ((c :: rest).drop compUnknownMarker.length).takeWhile isHexUp)
        else searchCompUnknown rest)
      else searchCompUnknown rest := by
  rfl

theorem searchCompUnknown_skip (pre rest : Str)
    (h : ∀ i < pre.length, compMatchAt (pre ++ rest) i = false) :
    searchCompUnknown (pre ++ rest) = searchCompUnknown rest := by
  induction pre with
  | nil => simp
  | cons c cs ih =>
      have h0 : compMatchAt (c :: (cs ++ rest)) 0 = false := by
        have := h 0 (by simp)
        simpa using this
      rw [List.cons_append, searchCompUnknown_cons_eq]
      by_cases hm : compUnknownMarker.isPrefixOf (c :: (cs ++ rest))
      · have hrun : ((c :: (cs ++ rest)).drop compUnknownMarker.length).takeWhile
            isHexUp = [] := by
          unfold compMatchAt at h0
          rw [List.drop_zero] at h0
          rw [takeWhile_hexUp_eq_nil_iff]
          rcases Bool.and_eq_false_iff.mp h0 with hfalse | hfalse
          · rw [hm] at hfalse
            cases hfalse
          · cases hh : isHexUp (((c :: (cs ++ rest)).drop compUnknownMarker.length).headD '!')
            · rfl
            · exfalso
              have : isHexUp (((c :: (cs ++ rest)).drop
                  compUnknownMarker.length).headD '!') = false := by
                simpa using hfalse
              rw [hh] at this
              cases this
        rw [if_pos hm, if_neg (by simpa using hrun)]
        apply ih
        intro i hi
        have := h (i + 1) (by simpa using Nat.succ_lt_succ hi)
        rw [List.cons_append, compMatchAt_cons] at this
        exact this
      · rw [if_neg hm]
        apply ih
        intro i hi
        have := h (i + 1) (by simpa using Nat.succ_lt_succ hi)
        rw [List.cons_append, compMatchAt_cons] at this
        exact this

theorem searchCompUnknown_none (s : Str)
    (h : ∀ i < s.length, compMatchAt s i = false) :
    searchCompUnknown s = none := by
  induction s with
  | nil => rfl
  | cons c rest ih =>
      have h0 : compMatchAt (c :: rest) 0 = false := h 0 (by simp)
      rw [searchCompUnknown_cons_eq]
      by_cases hm : compUnknownMarker.isPrefixOf (c :: rest)
      · have hrun : ((c :: rest).drop compUnknownMarker.length).takeWhile isHexUp = [] := by
          unfold compMatchAt at h0
          rw [List.drop_zero] at h0
          rw [takeWhile_hexUp_eq_nil_iff]
          rcases Bool.and_eq_false_iff.mp h0 with hfalse | hfalse
          · rw [hm] at hfalse
            cases hfalse
          · cases hh : isHexUp (((c :: rest).drop compUnknownMarker.length).headD '!')
            · rfl
            · exfalso
              have : isHexUp (((c :: rest).drop
                  compUnknownMarker.length).headD '!') = false := by
                simpa using hfalse
              rw [hh] at this
              cases this
        rw [if_pos hm, if_neg (by simpa using hrun)]
        apply ih
        intro i hi
        have := h (i + 1) (by simpa using Nat.succ_lt_succ hi)
        rw [compMatchAt_cons] at this
        exact this
      · rw [if_neg hm]
        apply ih
        intro i hi
        have := h (i + 1) (by simpa using Nat.succ_lt_succ hi)
        rw [compMatchAt_cons] at this
        exact this

theorem takeWhile_append_of_all {p : Char → Bool} {l₁ : Str} (l₂ : Str)
    (h : l₁.all p) : (l₁ ++ l₂).takeWhile p = l₁ ++ l₂.takeWhile p := by
  induction l₁ with
  | nil => simp
  | cons c cs ih =>
      rw [List.all_cons, Bool.and_eq_true] at h
      obtain ⟨hc, hcs⟩ := h
      rw [List.cons_append, List.takeWhile_cons, if_pos hc, ih hcs, List.cons_append]

theorem searchCompUnknown_found (s : Str) (h : compMatchAt s 0 = true) :
    searchCompUnknown s =
      some (compUnknownMarker ++
        (s.drop compUnknownMarker.length).takeWhile isHexUp) := by
  cases s with
  | nil =>
      exfalso
      unfold compMatchAt at h
      rw [List.drop_zero] at h
      rcases Bool.and_eq_true_iff.mp h with ⟨hpre, _⟩
      have : compUnknownMarker = [] := List.prefix_nil.mp (List.isPrefixOf_iff_prefix.mp hpre)
      cases this
  | cons c rest =>
      unfold compMatchAt at h
      rw [List.drop_zero] at h
      rcases Bool.and_eq_true_iff.mp h with ⟨hpre, hhex⟩
      rw [searchCompUnknown_cons_eq, if_pos hpre]
      have hrun : ((c :: rest).drop compUnknownMarker.length).takeWhile isHexUp ≠ [] := by
        intro hnil
        rw [takeWhile_hexUp_eq_nil_iff] at hnil
        simp only [hnil] at hhex
        cases hhex
      rw [if_pos (by simpa using hrun)]

/-- Claim C10: (a) whenever a cell is `pre ++ "COMP_UNKNOWN_" ++ hex ++ post`
with `hex` a non-empty run of upper-case hexadecimal characters, `post` not
extending the run, and no regex match starting inside `pre` (in particular
even when a regular pipe-joined CompanyID precedes it), `clean_company_id`
returns exactly that first match; (b) when the cell contains no match at all,
it returns the text before the first `'|'`, stripped of whitespace. -/
theorem c10_clean_company_id :
    (∀ pre hex post : Str, hex ≠ [] → hex.all isHexUp →
      post.takeWhile isHexUp = [] →
      (∀ i < pre.length,
        compMatchAt (pre ++ compUnknownMarker ++ hex ++ post) i = false) →
      clean_company_id (pre ++ compUnknownMarker ++ hex ++ post) =
        compUnknownMarker ++ hex) ∧
    (∀ s : Str, (∀ i < s.length, compMatchAt s i = false) →
      clean_company_id s = trimStr (s.takeWhile (· ≠ '|'))) := by
  constructor
  · intro pre hex post hne hall hpost hpre
    unfold clean_company_id
    have hassoc : pre ++ compUnknownMarker ++ hex ++ post =
        pre ++ (compUnknownMarker ++ (hex ++ post)) := by
      simp [List.append_assoc]
    rw [hassoc] at hpre ⊢
    rw [searchCompUnknown_skip pre (compUnknownMarker ++ (hex ++ post)) hpre]
    have hmatch : compMatchAt (compUnknownMarker ++ (hex ++ post)) 0 = true := by
      unfold compMatchAt
      rw [List.drop_zero, List.drop_left]
      apply Bool.and_eq_true_iff.mpr
      constructor
      · exact List.isPrefixOf_iff_prefix.mpr (List.prefix_append _ _)
      · cases hex with
        | nil => cases hne rfl
        | cons h0 hs =>
            rw [List.all_cons, Bool.and_eq_true] at hall
            simpa using hall.1
    rw [searchCompUnknown_found _ hmatch, List.drop_left,
      takeWhile_append_of_all post hall, hpost, List.append_nil]
  · intro s hnone
    unfold clean_company_id
    rw [searchCompUnknown_none s hnone]

/-- Witness for `c10_clean_company_id` part (a): a regular CompanyID precedes
the `COMP_UNKNOWN_` token in a pipe-joined cell, and the token still wins. -/
theorem c10_clean_company_id_witness :
    clean_company_id
        ("COMP_AB12 | ".data ++ compUnknownMarker ++ "1234ABCD".data ++ []) =
      compUnknownMarker ++ "1234ABCD".data :=
  c10_clean_company_id.1 ("COMP_AB12 | ".data) ("1234ABCD".data) []
    (by decide) (by decide) (by decide) (by decide)

/-! # Claim C6 (per-row duplicate removal) -/

theorem removeRowDuplicates_foldl (row : Row) :
    ∀ (vs : List Str) (r : Row),
      vs.foldl
          (fun r v =>
            if 3 ≤ (colsOfVal row v).length then blankCols ((colsOfVal row v).tail) r
            else r) r =
        r.map (fun c => if blankCondAny row vs c.1 then (c.1, ([] : Str)) else c) := by
  intro vs
  induction vs with
  | nil =>
      intro r
      simp [blankCondAny]
  | cons v vs ih =>
      intro r
      rw [List.foldl_cons]
      by_cases h : 3 ≤ (colsOfVal row v).length
      · rw [if_pos h, ih]
        unfold blankCols
        rw [List.map_map]
        apply List.map_congr_left
        intro c _
        by_cases hc : c.1 ∈ (colsOfVal row v).tail
        · have hcons : blankCondAny row (v :: vs) c.1 = true := by
            unfold blankCondAny
            rw [List.any_cons]
            apply Bool.or_eq_true_iff.mpr
            left
            simp [h, hc]
          simp only [Function.comp_apply, if_pos hc, hcons, if_true]
          by_cases hbc : blankCondAny row vs c.1 = true <;> simp [hbc]
        · have hcons : blankCondAny row (v :: vs) c.1 = blankCondAny row vs c.1 := by
            unfold blankCondAny
            rw [List.any_cons]
            simp [hc]
          simp only [Function.comp_apply, if_neg hc, hcons]
      · rw [if_neg h, ih]
        apply List.map_congr_left
        intro c _
        have hcons : blankCondAny row (v :: vs) c.1 = blankCondAny row vs c.1 := by
          unfold blankCondAny
          rw [List.any_cons]
          simp [h]
        rw [hcons]

theorem filterMap_sublist_map {α β : Type} (f : α → Option β) (g : α → β)
    (l : List α) (h : ∀ x, f x = none ∨ f x = some (g x)) :
    List.Sublist (l.filterMap f) (l.map g) := by
  induction l with
  | nil => simp
  | cons a l ih =>
      rcases h a with ha | ha
      · rw [List.filterMap_cons, ha, List.map_cons]
        exact ih.cons (g a)
      · rw [List.filterMap_cons, ha, List.map_cons]
        exact ih.cons₂ (g a)

theorem rowVals_names_sublist (row : Row) :
    List.Sublist ((rowVals row).map (·.1)) (row.map (·.1)) := by
  unfold rowVals
  rw [List.map_filterMap]
  apply filterMap_sublist_map
  intro x
  by_cases hx : validCellVal x.2 = true
  · right
    simp [hx]
  · left
    simp [hx]

theorem colsOfVal_sublist (row : Row) (v : Str) :
    List.Sublist (colsOfVal row v) ((rowVals row).map (·.1)) := by
  unfold colsOfVal
  exact (List.filter_sublist _).map _

theorem colsOfVal_nodup (row : Row) (h : (row.map (·.1)).Nodup) (v : Str) :
    (colsOfVal row v).Nodup :=
  (((colsOfVal_sublist row v).trans (rowVals_names_sublist row)).nodup h)

theorem mem_colsOfVal {row : Row} {v c : Str} :
    c ∈ colsOfVal row v ↔
      ∃ w, (c, w) ∈ row ∧ validCellVal w = true ∧ trimStr w = v := by
  unfold colsOfVal rowVals
  constructor
  · intro hc
    rcases List.mem_map.mp hc with ⟨p, hp, hp1⟩
    rcases List.mem_filter.mp hp with ⟨hpm, hpv⟩
    rcases List.mem_filterMap.mp hpm with ⟨x, hx, hfx⟩
    by_cases hval : validCellVal x.2 = true
    · rw [if_pos hval] at hfx
      have hx1 : x.1 = c := by
        have := congrArg Prod.fst (Option.some.inj hfx)
        simpa [hp1] using this
      have hx2 : trimStr x.2 = p.2 := by
        have := congrArg Prod.snd (Option.some.inj hfx)
        simpa using this
      refine ⟨x.2, ?_, hval, ?_⟩
      · rw [← hx1]
        simpa using hx
      · rw [hx2]
        simpa using hpv
    · rw [if_neg hval] at hfx
      cases hfx
  · rintro ⟨w, hw, hval, htrim⟩
    apply List.mem_map.mpr
    refine ⟨(c, v), ?_, rfl⟩
    apply List.mem_filter.mpr
    constructor
    · apply List.mem_filterMap.mpr
      exact ⟨(c, w), hw, by simp [hval, htrim]⟩
    · simp

theorem row_key_unique {row : Row} (h : (row.map (·.1)).Nodup) {c v w : Str}
    (h1 : (c, v) ∈ row) (h2 : (c, w) ∈ row) : v = w := by
  induction row with
  | nil => cases h1
  | cons hd tl ih =>
      rw [List.map_cons, List.nodup_cons] at h
      rcases List.mem_cons.mp h1 with rfl | h1t
      · rcases List.mem_cons.mp h2 with heq | h2t
        · exact congrArg Prod.snd heq.symm
        · exfalso
          apply h.1
          exact List.mem_map.mpr ⟨(c, w), h2t, rfl⟩
      · rcases List.mem_cons.mp h2 with rfl | h2t
        · exfalso
          apply h.1
          exact List.mem_map.mpr ⟨(c, v), h1t, rfl⟩
        · exact ih h.2 h1t h2t

theorem c6_cond_iff {row : Row} (h : (row.map (·.1)).Nodup) {c v : Str}
    (hmem : (c, v) ∈ row) :
    blankCondAny row (rowValueOrder row) c = true ↔
      (validCellVal v = true ∧ 3 ≤ (colsOfVal row (trimStr v)).length ∧
        (colsOfVal row (trimStr v)).head? ≠ some c) := by
  constructor
  · intro hb
    rcases List.any_eq_true.mp hb with ⟨u, hu, hcond⟩
    rcases Bool.and_eq_true_iff.mp hcond with ⟨hlen, htail⟩
    have hlen' : 3 ≤ (colsOfVal row u).length := of_decide_eq_true hlen
    have htail' : c ∈ (colsOfVal row u).tail := of_decide_eq_true htail
    have hcmem : c ∈ colsOfVal row u := List.mem_of_mem_tail htail'
    rcases mem_colsOfVal.mp hcmem with ⟨w, hw, hval, htrim⟩
    have hvw : v = w := row_key_unique h hmem hw
    subst hvw
    subst htrim
    refine ⟨hval, hlen', ?_⟩
    have hnd := colsOfVal_nodup row h (trimStr v)
    cases hcols : colsOfVal row (trimStr v) with
    | nil =>
        rw [hcols] at hcmem
        cases hcmem
    | cons h0 t =>
        rw [hcols] at htail' hnd
        simp only [List.tail_cons] at htail'
        rw [List.nodup_cons] at hnd
        intro hhead
        rw [List.head?_cons] at hhead
        have : h0 = c := Option.some.inj hhead
        subst this
        exact hnd.1 htail'
  · rintro ⟨hval, hlen, hhead⟩
    apply List.any_eq_true.mpr
    refine ⟨trimStr v, ?_, ?_⟩
    · unfold rowValueOrder
      apply mem_dedupKeepFirst.mpr
      apply List.mem_map.mpr
      refine ⟨(c, trimStr v), ?_, rfl⟩
      unfold rowVals
      apply List.mem_filterMap.mpr
      exact ⟨(c, v), hmem, by simp [hval]⟩
    · apply Bool.and_eq_true_iff.mpr
      have hcmem : c ∈ colsOfVal row (trimStr v) :=
        mem_colsOfVal.mpr ⟨v, hmem, hval, rfl⟩
      refine ⟨decide_eq_true hlen, decide_eq_true ?_⟩
      cases hcols : colsOfVal row (trimStr v) with
      | nil =>
          rw [hcols] at hcmem
          cases hcmem
      | cons h0 t =>
          rw [hcols] at hcmem hhead
          rw [List.head?_cons] at hhead
          simp only [List.tail_cons]
          rcases List.mem_cons.mp hcmem with rfl | ht
          · exact absurd rfl hhead
          · exact ht

/-- Claim C6: in the merged-row duplicate post-pass, a cell is blanked exactly
when its (valid, stripped) value occurs in at least 3 columns of the row and
the cell's column is not the first such column; values with fewer than 3
occurrences — and the first occurrence itself — are left untouched. -/
theorem c6_row_duplicate_removal (row : Row) (h : (row.map (·.1)).Nodup) :
    removeRowDuplicates row =
      row.map (fun c =>
        if validCellVal c.2 = true ∧ 3 ≤ (colsOfVal row (trimStr c.2)).length ∧
            (colsOfVal row (trimStr c.2)).head? ≠ some c.1
        then (c.1, ([] : Str)) else c) := by
  unfold removeRowDuplicates
  rw [removeRowDuplicates_foldl]
  apply List.map_congr_left
  intro c hc
  obtain ⟨c1, c2⟩ := c
  by_cases hcond : validCellVal c2 = true ∧ 3 ≤ (colsOfVal row (trimStr c2)).length ∧
      (colsOfVal row (trimStr c2)).head? ≠ some c1
  · rw [if_pos ((c6_cond_iff h hc).mpr hcond)]
    rw [if_pos hcond]
  · rw [if_neg fun hb => hcond ((c6_cond_iff h hc).mp hb)]
    rw [if_neg hcond]

/-- Witness for `c6_row_duplicate_removal`: Scenario C — `"ACME"` repeated in
3 columns is kept in the first and blanked in the other two, while a value
occurring once is untouched. -/
theorem c6_row_duplicate_removal_witness :
    removeRowDuplicates
        [("Notes".data, "ACME".data), ("Description".data, "ACME".data),
         ("Tagline".data, "ACME".data), ("Phone1".data, "123".data)] =
      [("Notes".data, "ACME".data), ("Description".data, []),
       ("Tagline".data, []), ("Phone1".data, "123".data)] := by
  have h := c6_row_duplicate_removal
    [("Notes".data, "ACME".data), ("Description".data, "ACME".data),
     ("Tagline".data, "ACME".data), ("Phone1".data, "123".data)] (by decide)
  rw [h]
  decide

/-! # Claim C8 (scrape file_name matching) -/

theorem fillName_default (m : List (Str × Str)) :
    fillName m (defaultFileName m) = defaultFileName m := by
  unfold fillName
  split <;> rfl

theorem fillName_empty {m : List (Str × Str)} (hm : m ≠ []) :
    fillName m [] = defaultFileName m := by
  unfold fillName
  rw [if_pos ⟨hm, Or.inl rfl⟩]

theorem fillName_net (m : List (Str × Str)) (r : ScrapRow) :
    fillName m (netFileName m r) = netFileName m r := by
  unfold netFileName
  cases hmatch : matchedName m r with
  | none => exact fillName_default m
  | some f =>
      show fillName m
          (if trimStr f = [] ∨ trimStr f = "Unknown".data then defaultFileName m
           else f) =
        (if trimStr f = [] ∨ trimStr f = "Unknown".data then defaultFileName m
         else f)
      by_cases hP : trimStr f = [] ∨ trimStr f = "Unknown".data
      · rw [if_pos hP]
        exact fillName_default m
      · rw [if_neg hP]
        unfold fillName
        rw [if_neg (fun hc => hP hc.2)]

theorem fillName_matched {m : List (Str × Str)} (hm : m ≠ []) {r : ScrapRow}
    {f : Str} (hmatch : matchedName m r = some f) :
    fillName m f = netFileName m r := by
  unfold netFileName
  rw [hmatch]
  show fillName m f =
    (if trimStr f = [] ∨ trimStr f = "Unknown".data then defaultFileName m else f)
  unfold fillName
  by_cases hP : trimStr f = [] ∨ trimStr f = "Unknown".data
  · rw [if_pos ⟨hm, hP⟩, if_pos hP]
  · rw [if_neg (fun hc => hP hc.2), if_neg hP]

theorem c8_fold (m : List (Str × Str)) (rows : List ScrapRow) (hm : m ≠ []) :
    ∀ k, k ≤ rows.length →
      (List.range k).foldl (fileNameStep m rows)
          (List.replicate rows.length []) =
        (List.range rows.length).map (fun j =>
          if j < k then netFileName m (rows.getD j ⟨[], [], []⟩)
          else if k = 0 then ([] : Str) else defaultFileName m) := by
  intro k
  induction k with
  | zero =>
      intro _
      rw [List.range_zero, List.foldl_nil]
      have hz : (List.range rows.length).map
          (fun j => if j < 0 then netFileName m (rows.getD j ⟨[], [], []⟩)
            else if 0 = 0 then ([] : Str) else defaultFileName m) =
          (List.range rows.length).map (fun _ => ([] : Str)) := by
        apply List.map_congr_left
        intro j _
        simp
      rw [hz, List.map_const', List.length_range]
  | succ k ih =>
      intro hk
      have hk' : k ≤ rows.length := Nat.le_of_succ_le hk
      rw [List.range_succ, List.foldl_append, List.foldl_cons, List.foldl_nil,
        ih hk']
      unfold fileNameStep
      cases hmatch : matchedName m (rows.getD k ⟨[], [], []⟩) with
      | some f =>
          show ((((List.range rows.length).map (fun j =>
              if j < k then netFileName m (rows.getD j ⟨[], [], []⟩)
              else if k = 0 then ([] : Str) else defaultFileName m)).set k f).map
                (fillName m)) = _
          apply List.ext_getElem
          · simp
          · intro j hj1 hj2
            have hjn : j < rows.length := by
              simpa using hj2
            have hjset : j < (((List.range rows.length).map (fun j =>
                if j < k then netFileName m (rows.getD j ⟨[], [], []⟩)
                else if k = 0 then ([] : Str) else defaultFileName m)).set
                  k f).length := by
              simpa using hjn
            have hjprev : j < ((List.range rows.length).map (fun j =>
                if j < k then netFileName m (rows.getD j ⟨[], [], []⟩)
                else if k = 0 then ([] : Str) else defaultFileName m)).length := by
              simpa using hjn
            rw [List.getElem_map, List.getElem_map, List.getElem_range,
              List.getElem_set, List.getElem_map, List.getElem_range]
            by_cases hjk : k = j
            · subst hjk
              rw [if_pos rfl, fillName_matched hm hmatch,
                if_pos (Nat.lt_succ_self k)]
            · rw [if_neg hjk]
              by_cases hlt : j < k
              · rw [if_pos hlt, if_pos (Nat.lt_succ_of_lt hlt)]
                exact fillName_net m _
              · have hlt2 : ¬ j < k + 1 := by
                  omega
                rw [if_neg hlt, if_neg hlt2]
                simp only [Nat.succ_ne_zero, if_false]
                by_cases hk0 : k = 0
                · rw [if_pos hk0]
                  exact fillName_empty hm
                · rw [if_neg hk0]
                  exact fillName_default m
      | none =>
          show (((List.range rows.length).map (fun j =>
              if j < k then netFileName m (rows.getD j ⟨[], [], []⟩)
              else if k = 0 then ([] : Str) else defaultFileName m)).map
                (fillName m)) = _
          apply List.ext_getElem
          · simp
          · intro j hj1 hj2
            have hjn : j < rows.length := by
              simpa using hj2
            rw [List.getElem_map, List.getElem_map, List.getElem_range,
              List.getElem_map, List.getElem_range]
            by_cases hlt : j < k
            · rw [if_pos hlt, if_pos (Nat.lt_succ_of_lt hlt)]
              exact fillName_net m _
            · by_cases hjk : j = k
              · subst hjk
                have hnet : netFileName m (rows.getD j ⟨[], [], []⟩) =
                    defaultFileName m := by
                  unfold netFileName
                  rw [hmatch]
                rw [if_neg hlt, if_pos (Nat.lt_succ_self j), hnet]
                by_cases hk0 : j = 0
                · rw [if_pos hk0]
                  exact fillName_empty hm
                · rw [if_neg hk0]
                  exact fillName_default m
              · have hlt2 : ¬ j < k + 1 := by
                  omega
                rw [if_neg hlt, if_neg hlt2]
                simp only [Nat.succ_ne_zero, if_false]
                by_cases hk0 : k = 0
                · rw [if_pos hk0]
                  exact fillName_empty hm
                · rw [if_neg hk0]
                  exact fillName_default m

/-- Claim C8's counterexample: with OCR/QR rows mapping `a.com → F1`,
`b.com → F2`, `c.com → F2`, the most common file_name is `F2`, yet an
unmatched scraped record (`zzz.com`) is assigned `F1` — the value of the
FIRST-INSERTED key of the URL→file_name dict, not the most common file_name.
Moreover, for a duplicated domain the dict keeps the LAST row's file_name, so
a matched record takes `F9` from the second row, not `F1` from the first. -/
theorem c8_counterexample :
    assignFileNames
        [{ urls := "a.com".data, file_name := "F1".data },
         { urls := "b.com".data, file_name := "F2".data },
         { urls := "c.com".data, file_name := "F2".data }]
        [{ Website := "zzz.com".data }] = ["F1".data] ∧
    mostCommonFileName
        [{ urls := "a.com".data, file_name := "F1".data },
         { urls := "b.com".data, file_name := "F2".data },
         { urls := "c.com".data, file_name := "F2".data }] = "F2".data ∧
    ("F1".data ≠ "F2".data) ∧
    assignFileNames
        [{ urls := "a.com".data, file_name := "F1".data },
         { urls := "a.com".data, file_name := "F9".data }]
        [{ urls := "a.com".data }] = ["F9".data] := by
  decide

/-- Claim C8 as amended: every scraped row ends with the file_name given by
`netFileName` — a matched row takes the dict's CURRENT value for its domain
(the LAST contributing OCR/QR row, since later rows overwrite), unless that
value strips to `''`/`'Unknown'`; every other row (unmatched, or matched to a
blank/`'Unknown'` name) is assigned the value of the FIRST-INSERTED domain of
the URL→file_name dict — not the most common file_name. -/
theorem c8_filename_assignment (mixRows : List MixRow) (scrapRows : List ScrapRow)
    (hm : buildUrlMap mixRows ≠ []) :
    assignFileNames mixRows scrapRows =
      scrapRows.map (netFileName (buildUrlMap mixRows)) := by
  unfold assignFileNames
  rw [c8_fold (buildUrlMap mixRows) scrapRows hm scrapRows.length (le_refl _)]
  apply List.ext_getElem
  · simp
  · intro j hj1 hj2
    have hjn : j < scrapRows.length := by
      simpa using hj2
    simp only [List.getElem_map, List.getElem_range]
    rw [if_pos hjn]
    congr 1
    exact List.getD_eq_getElem scrapRows ⟨[], [], []⟩ hjn

/-- Witness for `c8_filename_assignment`: one matched and one unmatched
scraped row both resolve via `netFileName`. -/
theorem c8_filename_assignment_witness :
    assignFileNames [{ urls := "a.com".data, file_name := "F1".data }]
        [{ Website := "a.com".data }, { Website := "z.com".data }] =
      ["F1".data, "F1".data] := by
  have h := c8_filename_assignment
    [{ urls := "a.com".data, file_name := "F1".data }]
    [{ Website := "a.com".data }, { Website := "z.com".data }] (by decide)
  rw [h]
  decide

/-! # Claim C4 (reconciliation idempotence) -/

theorem insSorted_perm (x : Str) (l : List Str) :
    List.Perm (insSorted x l) (x :: l) := by
  induction l with
  | nil => rfl
  | cons y ys ih =>
      unfold insSorted
      by_cases h : keyLe x y = true
      · rw [if_pos h]
      · rw [if_neg h]
        exact (ih.cons y).trans (List.Perm.swap x y ys)

theorem sortCols_perm (l : List Str) : List.Perm (sortCols l) l := by
  induction l with
  | nil => rfl
  | cons x xs ih =>
      unfold sortCols
      show List.Perm (insSorted x (sortCols xs)) (x :: xs)
      exact (insSorted_perm x (sortCols xs)).trans (ih.cons x)

theorem colNames_filterMap {F : Str × List Str → Option (Str × List Str)}
    {q : Str → Bool}
    (hF : ∀ c, (F c).map (·.1) = if q c.1 then some c.1 else none) :
    ∀ t : Table, colNames (t.filterMap F) = (colNames t).filter q := by
  intro t
  induction t with
  | nil => rfl
  | cons c t ih =>
      have hc := hF c
      show colNames (List.filterMap F (c :: t)) = List.filter q (colNames (c :: t))
      rw [List.filterMap_cons]
      cases hFc : F c with
      | none =>
          rw [hFc] at hc
          have hq : q c.1 = false := by
            by_cases hq1 : q c.1 = true
            · rw [if_pos hq1] at hc
              simp at hc
            · simpa using hq1
          show colNames (List.filterMap F t) = List.filter q (c.1 :: colNames t)
          rw [List.filter_cons, hq]
          simpa using ih
      | some d =>
          rw [hFc] at hc
          have hq : q c.1 = true := by
            by_cases hq1 : q c.1 = true
            · exact hq1
            · rw [Bool.not_eq_true] at hq1
              rw [hq1] at hc
              simp at hc
          rw [if_pos hq] at hc
          have hd1 : d.1 = c.1 := by
            simpa using hc
          show colNames (d :: List.filterMap F t) = List.filter q (c.1 :: colNames t)
          unfold colNames
          rw [List.map_cons, List.filter_cons, hq, hd1]
          simp only [if_true]
          exact congrArg (c.1 :: ·) ih

theorem merge_numbered_names (t : Table)
    (h : groupBases (colNames t) ≠ []) :
    colNames (merge_numbered_columns t) =
      (colNames t).filter (surviveNumbered (colNames t)) := by
  unfold merge_numbered_columns
  rw [if_neg h]
  apply colNames_filterMap
  intro c
  unfold surviveNumbered
  by_cases hb : lowBase c.1 ∈ groupBases (colNames t)
  · by_cases hd : c.1 ∈ droppedCols (groupOf (colNames t) (lowBase c.1))
    · simp [hb, hd]
    · simp [hb, hd]
  · simp [hb]

theorem filter_not_dropped_len (g : List Str) (hg : g ≠ []) :
    (g.filter (fun n => decide (n ∉ droppedCols g))).length ≤ 1 := by
  have hperm := sortCols_perm g
  cases hs : sortCols g with
  | nil =>
      exfalso
      rw [hs] at hperm
      exact hg hperm.nil_eq.symm
  | cons h0 ts =>
      have hdrop : droppedCols g = ts := by
        unfold droppedCols
        rw [hs]
        rfl
      rw [hdrop]
      set p : Str → Bool := fun x => decide (x = h0) with hp
      set F := g.filter (fun n => decide (n ∉ ts)) with hF
      have hmemF : ∀ x ∈ F, x = h0 := by
        intro x hx
        rcases List.mem_filter.mp hx with ⟨hxg, hxts⟩
        have hxts2 : x ∉ ts := of_decide_eq_true hxts
        have hxs : x ∈ sortCols g := hperm.mem_iff.mpr hxg
        rw [hs] at hxs
        rcases List.mem_cons.mp hxs with rfl | hxin
        · rfl
        · exact absurd hxin hxts2
      cases hFnil : F with
      | nil => simp
      | cons a as =>
          have hh0F : h0 ∈ F := by
            have ha : a = h0 := hmemF a (by rw [hFnil]; exact List.mem_cons_self a as)
            rw [hFnil, ← ha]
            exact List.mem_cons_self a as
          rcases List.mem_filter.mp hh0F with ⟨hh0g, hh0ts⟩
          have hh0ts2 : h0 ∉ ts := of_decide_eq_true hh0ts
          have hcnt : g.countP p = 1 := by
            rw [← hperm.countP_eq, hs, List.countP_cons]
            have hts0 : ts.countP p = 0 := by
              apply List.countP_eq_zero.mpr
              intro a ha hpa
              have : a = h0 := of_decide_eq_true hpa
              exact hh0ts2 (this ▸ ha)
            rw [hts0]
            simp [hp]
          have hlenF : F.countP p = F.length := by
            apply List.countP_eq_length.mpr
            intro a ha
            exact decide_eq_true (hmemF a ha)
          have hle : F.countP p ≤ g.countP p := by
            rw [hF]
            exact (List.filter_sublist g).countP_le p
          rw [← hFnil, ← hlenF]
          omega

theorem survivors_group_le_one (names : List Str) (b : Str) :
    (((names.filter (surviveNumbered names)).filter
      (fun n => lowBase n = b))).length ≤ 1 := by
  rw [List.filter_comm]
  by_cases hlen : 2 ≤ (groupOf names b).length
  · have hb : b ∈ groupBases names := by
      unfold groupBases
      apply List.mem_filter.mpr
      constructor
      · apply mem_dedupKeepFirst.mpr
        have hne : groupOf names b ≠ [] := by
          intro hnil
          rw [hnil] at hlen
          simp at hlen
        rcases List.exists_mem_of_ne_nil _ hne with ⟨n, hn⟩
        rcases List.mem_filter.mp hn with ⟨hnn, hnb⟩
        have hnb2 : lowBase n = b := of_decide_eq_true hnb
        apply List.mem_map.mpr
        exact ⟨n, hnn, hnb2⟩
      · exact decide_eq_true hlen
    have hcongr : (names.filter (fun n => lowBase n = b)).filter
        (surviveNumbered names) =
        (names.filter (fun n => lowBase n = b)).filter
          (fun n => decide (n ∉ droppedCols (groupOf names b))) := by
      apply List.filter_congr
      intro n hn
      rcases List.mem_filter.mp hn with ⟨_, hnb⟩
      have hnb2 : lowBase n = b := of_decide_eq_true hnb
      unfold surviveNumbered
      rw [hnb2, decide_eq_true hb, Bool.true_and, decide_not]
    have hgof : names.filter (fun n => lowBase n = b) = groupOf names b := rfl
    rw [hcongr, hgof]
    apply filter_not_dropped_len
    intro hnil
    rw [hnil] at hlen
    simp at hlen
  · have hsub : ((names.filter (fun n => lowBase n = b)).filter
        (surviveNumbered names)).length ≤
        (names.filter (fun n => lowBase n = b)).length :=
      (List.filter_sublist _).length_le
    have hgof : names.filter (fun n => lowBase n = b) = groupOf names b := rfl
    have hlen2 : (names.filter (fun n => lowBase n = b)).length ≤ 1 := by
      rw [hgof]
      omega
    omega

theorem groupBases_survivors_nil (names : List Str)
    (h : ∀ b, ((names.filter (fun n => lowBase n = b)).length ≤ 1)) :
    groupBases names = [] := by
  unfold groupBases
  apply List.filter_eq_nil_iff.mpr
  intro b _
  have hb := h b
  have hgof : names.filter (fun n => lowBase n = b) = groupOf names b := rfl
  rw [hgof] at hb
  simp only [decide_eq_true_eq]
  omega

theorem merge_numbered_idem (t : Table) :
    merge_numbered_columns (merge_numbered_columns t) = merge_numbered_columns t := by
  by_cases h : groupBases (colNames t) = []
  · have ht : merge_numbered_columns t = t := by
      unfold merge_numbered_columns
      rw [if_pos h]
    rw [ht, ht]
  · have hnil : groupBases (colNames (merge_numbered_columns t)) = [] := by
      rw [merge_numbered_names t h]
      exact groupBases_survivors_nil _ (fun b => survivors_group_le_one (colNames t) b)
    generalize merge_numbered_columns t = u at hnil ⊢
    unfold merge_numbered_columns
    rw [if_pos hnil]

theorem dupBuild_lowers (t : Table) (names : List Str) :
    ∀ (rest : Table) (prev : List Str),
      ((colNames (dupBuild t names prev rest)).map lowerStr).Nodup ∧
        ∀ n ∈ colNames (dupBuild t names prev rest),
          lowerStr n ∉ prev.map lowerStr := by
  intro rest
  induction rest with
  | nil =>
      intro prev
      constructor
      · simp [dupBuild, colNames]
      · intro n hn
        simp [dupBuild, colNames] at hn
  | cons c rest ih =>
      intro prev
      unfold dupBuild
      by_cases hskip : prev.any (fun m => lowerStr m = lowerStr c.1) = true
      · rw [if_pos hskip]
        rcases ih (c.1 :: prev) with ⟨ihn, ihm⟩
        refine ⟨ihn, ?_⟩
        intro n hn
        have hh := ihm n hn
        rw [List.map_cons] at hh
        intro hmem
        exact hh (List.mem_cons_of_mem _ hmem)
      · rw [if_neg hskip]
        have hhead : lowerStr c.1 ∉ prev.map lowerStr := by
          intro hmem
          rcases List.mem_map.mp hmem with ⟨m, hm, hml⟩
          rw [Bool.not_eq_true, List.any_eq_false] at hskip
          have := hskip m hm
          simp [hml] at this
        rcases ih (c.1 :: prev) with ⟨ihn, ihm⟩
        have hnotin : lowerStr c.1 ∉
            (colNames (dupBuild t names (c.1 :: prev) rest)).map lowerStr := by
          intro hmem
          rcases List.mem_map.mp hmem with ⟨n, hn, hnl⟩
          have hh := ihm n hn
          rw [List.map_cons] at hh
          exact hh (by rw [hnl]; exact List.mem_cons_self _ _)
        have hrest : ∀ (vals : List Str),
            ((colNames ((c.1, vals) :: dupBuild t names (c.1 :: prev) rest)).map
              lowerStr).Nodup ∧
            ∀ n ∈ colNames ((c.1, vals) :: dupBuild t names (c.1 :: prev) rest),
              lowerStr n ∉ prev.map lowerStr := by
          intro vals
          constructor
          · unfold colNames
            rw [List.map_cons, List.map_cons, List.nodup_cons]
            exact ⟨hnotin, ihn⟩
          · intro n hn
            unfold colNames at hn
            rw [List.map_cons] at hn
            rcases List.mem_cons.mp hn with rfl | hnt
            · exact hhead
            · intro hmem
              have hh := ihm n hnt
              rw [List.map_cons] at hh
              exact hh (List.mem_cons_of_mem _ hmem)
        by_cases hdup : 2 ≤ (dupGroup names c.1).length
        · rw [if_pos hdup]
          exact hrest _
        · rw [if_neg hdup]
          exact hrest c.2

theorem nodup_map_filter_le_one {l : List Str} (h : (l.map lowerStr).Nodup)
    (n : Str) : (l.filter (fun m => lowerStr m = lowerStr n)).length ≤ 1 := by
  induction l with
  | nil => simp
  | cons a l ih =>
      rw [List.map_cons, List.nodup_cons] at h
      rw [List.filter_cons]
      by_cases ha : lowerStr a = lowerStr n
      · rw [if_pos (decide_eq_true ha)]
        have hnil : l.filter (fun m => lowerStr m = lowerStr n) = [] := by
          apply List.filter_eq_nil_iff.mpr
          intro m hm hpm
          have hmn : lowerStr m = lowerStr n := of_decide_eq_true hpm
          apply h.1
          apply List.mem_map.mpr
          exact ⟨m, hm, by rw [hmn, ha]⟩
        rw [hnil]
        simp
      · rw [if_neg (by simpa using ha)]
        exact ih h.2

theorem merge_dup_idem (t : Table) :
    merge_duplicate_columns (merge_duplicate_columns t) =
      merge_duplicate_columns t := by
  by_cases h : ((colNames t).all
      (fun n => (dupGroup (colNames t) n).length ≤ 1)) = true
  · have ht : merge_duplicate_columns t = t := by
      unfold merge_duplicate_columns
      rw [if_pos h]
    rw [ht, ht]
  · have ht : merge_duplicate_columns t = dupBuild t (colNames t) [] t := by
      unfold merge_duplicate_columns
      rw [if_neg h]
    have hnd : ((colNames (dupBuild t (colNames t) [] t)).map lowerStr).Nodup :=
      (dupBuild_lowers t (colNames t) t []).1
    have hall : ((colNames (dupBuild t (colNames t) [] t)).all
        (fun n => (dupGroup (colNames (dupBuild t (colNames t) [] t)) n).length ≤ 1))
          = true := by
      rw [List.all_eq_true]
      intro n _
      apply decide_eq_true
      exact nodup_map_filter_le_one hnd n
    rw [ht]
    generalize dupBuild t (colNames t) [] t = u at hall
    unfold merge_duplicate_columns
    rw [if_pos hall]

/-- Claim C4's counterexample: on the table with columns
`[NameFA, NameFAFA, Name]` the first bilingual pass pairs `(NameFA, NameFAFA)`
(marking `NameFA` processed, so `Name` cannot pair with it), while the second
run pairs `(Name, NameFA)` and drops another column: the full reconciliation
is NOT idempotent. -/
theorem c4_counterexample :
    columnReconciler (columnReconciler
        [("NameFA".data, ["a".data]), ("NameFAFA".data, ["b".data]),
         ("Name".data, ["c".data])]) ≠
      columnReconciler
        [("NameFA".data, ["a".data]), ("NameFAFA".data, ["b".data]),
         ("Name".data, ["c".data])] := by
  decide

/-- Claim C4 as amended: the numbered-suffix merge and the case-duplicate
merge are each idempotent (a second run of either pass is a no-op on any
table), but the bilingual-pair merge is not, so the full reconciliation
`ColumnReconciler(ColumnReconciler(T)) = ColumnReconciler(T)` fails in
general. -/
theorem c4_passes_idempotent :
    (∀ t : Table, merge_numbered_columns (merge_numbered_columns t) =
      merge_numbered_columns t) ∧
    (∀ t : Table, merge_duplicate_columns (merge_duplicate_columns t) =
      merge_duplicate_columns t) :=
  ⟨merge_numbered_idem, merge_dup_idem⟩
